import Mathlib

set_option maxRecDepth 16000

/-!
Shallow embedding of the blockchain integrity engine of
`src/blockchain_network_render.py`: canonical encoding, Merkle-root
computation, proof-of-work mining, chain validation and balance accounting.

The SHA-256 primitive (Python `hashlib.sha256(...).hexdigest()`) is a library
call, not code of this repository; the development is parametric in it
(`sha256hex : String → String`).  Python `time.time()` timestamps are
nondeterministic floats; they are modelled as explicit `Nat` arguments.
Python's unbounded `while` loops (proof-of-work) are modelled with explicit
fuel, returning `none` on exhaustion.  The `print` diagnostics of
`is_chain_valid` are modelled as the second component of
`is_chain_valid_logged`; the Python function's return value is only the
boolean, which `is_chain_valid` reproduces.
-/

/-- Which of the three validation checks fired (corresponding to the three
`print` branches of `Blockchain.is_chain_valid`). -/
inductive CheckKind where
  | hashCheck
  | linkCheck
  | powCheck
deriving DecidableEq, Repr

/-- Order in which `is_chain_valid` performs the three checks on a block. -/
def checkOrder : CheckKind → Nat
  | CheckKind.hashCheck => 0
  | CheckKind.linkCheck => 1
  | CheckKind.powCheck => 2

/-- A transaction record.  Python transactions are dicts accessed with
`.get`, so every field is optional (`create_transaction` fills them all). -/
structure Tx where
  sender : Option String
  recipient : Option String
  amount : Option Int
  timestamp : Option Nat
deriving DecidableEq, Repr

/-- `create_transaction(sender, recipient, amount)`; the `time.time()`
timestamp is the explicit `now` argument. -/
def create_transaction (sender recipient : String) (amount : Int) (now : Nat) : Tx :=
  { sender := some sender, recipient := some recipient,
    amount := some amount, timestamp := some now }

/-- JSON encoding of a string value (no escaping needed for the names used). -/
def jsonStr (s : String) : String := "\"" ++ s ++ "\""

/-- `json.dumps(tx, sort_keys=True)`: keys in sorted order
(amount, recipient, sender, timestamp), absent keys omitted. -/
def txEncode (tx : Tx) : String :=
  let f1 : List String := match tx.amount with
    | some a => ["\"amount\": " ++ toString a]
    | none => []
  let f2 : List String := match tx.recipient with
    | some r => ["\"recipient\": " ++ jsonStr r]
    | none => []
  let f3 : List String := match tx.sender with
    | some s => ["\"sender\": " ++ jsonStr s]
    | none => []
  let f4 : List String := match tx.timestamp with
    | some t => ["\"timestamp\": " ++ toString t]
    | none => []
  "\x7b" ++ String.intercalate ", " (f1 ++ f2 ++ f3 ++ f4) ++ "\x7d"

/-- JSON encoding of a transaction list. -/
def txListEncode (txs : List Tx) : String :=
  "[" ++ String.intercalate ", " (txs.map txEncode) ++ "]"

/-- A block.  `merkle_root` is `None` in Python for an empty transaction
list, hence `Option String`. -/
structure Block where
  index : Nat
  transactions : List Tx
  previous_hash : String
  timestamp : Nat
  nonce : Nat
  merkle_root : Option String
  hash : String
deriving DecidableEq, Repr

instance : Inhabited Block :=
  ⟨{ index := 0, transactions := [], previous_hash := "", timestamp := 0,
     nonce := 0, merkle_root := none, hash := "" }⟩

/-- `json.dumps(block_data, sort_keys=True)` over the dict built in
`Block.compute_hash`: keys in sorted order (index, merkle_root, nonce,
previous_hash, timestamp, transactions).  The stored `hash` field is not
part of the hashed data. -/
def blockEncode (b : Block) : String :=
  "\x7b" ++ String.intercalate ", "
    ["\"index\": " ++ toString b.index,
     "\"merkle_root\": " ++ (match b.merkle_root with
       | some r => jsonStr r
       | none => "null"),
     "\"nonce\": " ++ toString b.nonce,
     "\"previous_hash\": " ++ jsonStr b.previous_hash,
     "\"timestamp\": " ++ toString b.timestamp,
     "\"transactions\": " ++ txListEncode b.transactions] ++ "\x7d"

/-- `'0' * difficulty`, the required hash prefix. -/
def zeroTarget (difficulty : Nat) : String :=
  String.mk (List.replicate difficulty '0')

/-- Python `str.startswith`, modelled over the character list. -/
def strStartsWith (s p : String) : Bool := s.data.take p.data.length == p.data

section Engine

variable (sha256hex : String → String)

/-- Leaf hash of one transaction in `Block.compute_merkle_root`. -/
def txHash (tx : Tx) : String := sha256hex (txEncode tx)

/-- One level of the Merkle reduction: the inner `for i in range(0, len, 2)`
loop, pairing adjacent hashes, the odd last one with itself. -/
def merklePass : List String → List String
  | [] => []
  | [x] => [sha256hex (x ++ x)]
  | x :: y :: rest => sha256hex (x ++ y) :: merklePass rest

theorem merklePass_length : (l : List String) →
    (merklePass sha256hex l).length = (l.length + 1) / 2
  | [] => by simp [merklePass]
  | [x] => by simp [merklePass]
  | x :: y :: rest => by
    simp only [merklePass, List.length_cons, merklePass_length rest]
    omega

/-- The `while len(hashes) > 1` loop of `Block.compute_merkle_root`, with
explicit fuel so that it is structurally recursive (each pass halves the
list, so `hashes.length` steps always suffice; see `merkleLoopF_exits`). -/
def merkleLoopF : Nat → List String → List String
  | 0, hashes => hashes
  | fuel + 1, hashes =>
    if hashes.length > 1 then merkleLoopF fuel (merklePass sha256hex hashes)
    else hashes

/-- The Merkle reduction loop at its sufficient fuel. -/
def merkleLoop (hashes : List String) : List String :=
  merkleLoopF sha256hex hashes.length hashes

/-- One-step unfolding of the fuelled loop. -/
theorem merkleLoopF_succ (fuel : Nat) (hashes : List String) :
    merkleLoopF sha256hex (fuel + 1) hashes =
      if hashes.length > 1 then
        merkleLoopF sha256hex fuel (merklePass sha256hex hashes)
      else hashes := rfl

/-- `hashes.length` steps of fuel always reach the loop's exit condition
`len(hashes) <= 1`, so the fuelled loop computes the same result as the
unbounded `while` loop of the source. -/
theorem merkleLoopF_exits : ∀ (fuel : Nat) (hashes : List String),
    hashes.length ≤ fuel → (merkleLoopF sha256hex fuel hashes).length ≤ 1
  | 0, hashes => by
    intro h
    simp only [merkleLoopF]
    omega
  | fuel + 1, hashes => by
    intro h
    rw [merkleLoopF_succ]
    by_cases hl : hashes.length > 1
    · rw [if_pos hl]
      have hp := merklePass_length sha256hex hashes
      exact merkleLoopF_exits fuel (merklePass sha256hex hashes) (by omega)
    · rw [if_neg hl]
      omega

/-- The while loop exits with its guard false. -/
theorem merkleLoop_exits (hashes : List String) :
    (merkleLoop sha256hex hashes).length ≤ 1 :=
  merkleLoopF_exits sha256hex hashes.length hashes (Nat.le_refl _)

/-- `Block.compute_merkle_root`: `None` for an empty list, otherwise the
single remaining hash. -/
def compute_merkle_root (transactions : List Tx) : Option String :=
  if transactions.isEmpty then none
  else (merkleLoop sha256hex (transactions.map (txHash sha256hex))).head?

/-- `Block.compute_hash`: SHA-256 of the canonical block-data encoding. -/
def compute_hash (b : Block) : String := sha256hex (blockEncode b)

/-- `Block.__init__`: computes `merkle_root` from the transactions, then the
content hash. -/
def mkBlock (index : Nat) (transactions : List Tx) (previous_hash : String)
    (timestamp : Nat) (nonce : Nat) : Block :=
  let b0 : Block :=
    { index := index, transactions := transactions,
      previous_hash := previous_hash, timestamp := timestamp, nonce := nonce,
      merkle_root := compute_merkle_root sha256hex transactions, hash := "" }
  { b0 with hash := compute_hash sha256hex b0 }

end Engine

/-- The chain state: `chain`, `mempool`, `difficulty`. -/
structure Blockchain where
  chain : List Block
  mempool : List Tx
  difficulty : Nat
deriving DecidableEq, Repr

section Ops

variable (sha256hex : String → String)

/-- `Blockchain.create_genesis_block` + `__init__`: four mint transactions
and the genesis block, all timestamps `now`. -/
def newBlockchain (difficulty : Nat) (now : Nat) : Blockchain :=
  { chain := [mkBlock sha256hex 0
      [create_transaction "network" "Alice" 1000 now,
       create_transaction "network" "Bob" 1000 now,
       create_transaction "network" "Charlie" 1000 now,
       create_transaction "network" "miner1" 500 now] "0" now 0],
    mempool := [], difficulty := difficulty }

/-- The `while not computed_hash.startswith('0'*difficulty)` loop of
`Blockchain.proof_of_work`, with fuel; returns the found nonce with the
corresponding hash. -/
def powLoop (difficulty : Nat) (b : Block) : Nat → Nat → Option (Nat × String)
  | 0, _ => none
  | fuel + 1, nonce =>
    let h := compute_hash sha256hex { b with nonce := nonce }
    if strStartsWith h (zeroTarget difficulty) then some (nonce, h)
    else powLoop difficulty b fuel (nonce + 1)

/-- `Blockchain.proof_of_work`: resets the nonce to 0 and searches upward. -/
def proof_of_work (difficulty : Nat) (b : Block) (fuel : Nat) :
    Option (Nat × String) :=
  powLoop sha256hex difficulty b fuel 0

/-- `Blockchain.mine_block`.  Outer `none` models non-termination (fuel
exhaustion of the unbounded PoW search, or the `IndexError` of `chain[-1]`
on an empty chain); `some (none, bc)` is the empty-mempool sentinel
(`return None` with the state untouched); `some (some blk, bc)` is a mined
block and the new state. -/
def mine_block (bc : Blockchain) (miner_address : String) (now : Nat)
    (fuel : Nat) : Option (Option Block × Blockchain) :=
  if bc.mempool.isEmpty then some (none, bc)
  else
    match bc.chain.getLast? with
    | none => none
    | some tail =>
      let reward_tx := create_transaction "network" miner_address 10 now
      let mempool1 := bc.mempool ++ [reward_tx]
      let new_block := mkBlock sha256hex bc.chain.length mempool1 tail.hash now 0
      match proof_of_work sha256hex bc.difficulty new_block fuel with
      | none => none
      | some (n, h) =>
        let sealed := { new_block with nonce := n, hash := h }
        some (some sealed,
          { bc with chain := bc.chain ++ [sealed], mempool := [] })

/-- The `for i in range(1, len(chain))` loop of `Blockchain.is_chain_valid`,
carrying the previous block and the current index; the second component
records which `print` branch fired. -/
def validateLoop (difficulty : Nat) :
    Block → List Block → Nat → Bool × Option (Nat × CheckKind)
  | _, [], _ => (true, none)
  | prev, curr :: rest, i =>
    if curr.hash ≠ compute_hash sha256hex curr then
      (false, some (i, CheckKind.hashCheck))
    else if curr.previous_hash ≠ prev.hash then
      (false, some (i, CheckKind.linkCheck))
    else if ¬ strStartsWith curr.hash (zeroTarget difficulty) then
      (false, some (i, CheckKind.powCheck))
    else validateLoop difficulty curr rest (i + 1)

/-- `Blockchain.is_chain_valid` together with its console diagnostic: the
boolean is the Python return value, the option records the failing index and
check printed before returning `False` (`none` when `True` is returned). -/
def is_chain_valid_logged (bc : Blockchain) : Bool × Option (Nat × CheckKind) :=
  match bc.chain with
  | [] => (true, none)
  | g :: rest => validateLoop sha256hex bc.difficulty g rest 1

/-- The value `Blockchain.is_chain_valid` actually returns: only a boolean. -/
def is_chain_valid (bc : Blockchain) : Bool :=
  (is_chain_valid_logged sha256hex bc).1

end Ops

/-- `Blockchain.add_transaction`: unconditionally appends to the mempool and
returns `True`. -/
def add_transaction (bc : Blockchain) (transaction : Tx) : Blockchain × Bool :=
  ({ bc with mempool := bc.mempool ++ [transaction] }, true)

/-- `Blockchain.get_balance`: replay the chain (debits and credits), then the
mempool (debits only); `tx.get('amount', 0)` is `Option.getD 0`, and a
missing `sender`/`recipient` (`tx.get(...) = None`) never equals the queried
address string. -/
def get_balance (bc : Blockchain) (address : String) : Int :=
  let bal := bc.chain.foldl (fun balance block =>
    block.transactions.foldl (fun balance tx =>
      let balance := if tx.sender = some address
        then balance - tx.amount.getD 0 else balance
      if tx.recipient = some address
        then balance + tx.amount.getD 0 else balance) balance) 0
  bc.mempool.foldl (fun balance tx =>
    if tx.sender = some address
      then balance - tx.amount.getD 0 else balance) bal

/-- Hexadecimal digit character for `n < 16` (`0`-`9` then `a`-`f`). -/
def hexDigit (n : Nat) : Char :=
  if n < 10 then Char.ofNat (48 + n) else Char.ofNat (87 + n)

/-- Byte sum of a string. -/
def strSum (s : String) : Nat := s.data.foldl (fun a c => a + c.toNat) 0

/-- A concrete executable stand-in for the SHA-256 primitive, used to
evaluate the development at closed inputs: five hex characters determined
by the byte sum of the input (leading `'0'` exactly when the sum is even). -/
def testHash (s : String) : String :=
  let n := strSum s
  String.mk [(if n % 2 == 0 then '0' else '1'),
    hexDigit (n / 4096 % 16), hexDigit (n / 256 % 16),
    hexDigit (n / 16 % 16), hexDigit (n % 16)]


/-! Concrete fixtures (using `testHash` for the SHA-256 parameter) used by
closed witnesses and counterexamples. -/

/-- A concrete genesis-style block. -/
def c0 : Block := mkBlock testHash 0 [create_transaction "a" "b" 5 1] "0" 1 0

/-- A concrete block linked to `c0`. -/
def c1 : Block := mkBlock testHash 1 [create_transaction "b" "c" 2 2] c0.hash 2 0

/-- A concrete block linked to `c1`. -/
def c2 : Block := mkBlock testHash 2 [create_transaction "c" "a" 1 3] c1.hash 3 0

/-- A valid 3-block chain at difficulty 0 with an empty mempool. -/
def bcV : Blockchain := ⟨[c0, c1, c2], [], 0⟩

/-- A chain whose block 1 has a corrupted stored hash. -/
def bcH : Blockchain := ⟨[c0, { c1 with hash := "bogus" }, c2], [], 0⟩

/-- A chain whose block 1 is internally consistent but mislinked. -/
def bcL : Blockchain :=
  ⟨[c0, mkBlock testHash 1 [create_transaction "b" "c" 2 2] "wrongprev" 2 0], [], 0⟩

/-- A corrupted chain together with a pending transaction. -/
def bcBad : Blockchain :=
  ⟨[c0, { c1 with hash := "bogus" }], [create_transaction "x" "y" 1 9], 1⟩

/-- A block used to exercise the proof-of-work search at difficulty 1. -/
def blockW : Block := mkBlock testHash 1 [create_transaction "a" "b" 5 4] "00abc" 4 0

/-- A concrete internally consistent genesis block whose hash has no leading
zeros. -/
def gBlock : Block := mkBlock testHash 0 [create_transaction "network" "Alice" 1000 7] "0" 7 0

/-- A pending transaction fixture. -/
def txW : Tx := create_transaction "x" "y" 1 5

/-- The valid chain `bcV` with one pending transaction. -/
def bcW : Blockchain := ⟨[c0, c1, c2], [txW], 0⟩

/-- The block mined from `bcW` (nonce 0 satisfies difficulty 0). -/
def blkW : Block :=
  mkBlock testHash 3 [txW, create_transaction "network" "m" 10 5] c2.hash 5 0

/-- The state after mining `bcW`. -/
def bcW2 : Blockchain := ⟨[c0, c1, c2, blkW], [], 0⟩

/-- A transaction record lacking the amount and timestamp fields. -/
def txMalformed : Tx :=
  { sender := some "Alice", recipient := some "Bob", amount := none, timestamp := none }

/-- A 1-block chain crediting Alice 100, with a pending Alice→Bob 30 debit,
at difficulty 2 (the balance-asymmetry scenario of the spec). -/
def aliceChain : Blockchain :=
  ⟨[mkBlock testHash 0 [create_transaction "network" "Alice" 100 1] "0" 1 0],
   [create_transaction "Alice" "Bob" 30 2], 2⟩

/-! Spec-side definitions (worded from the spec, for refinement statements). -/

/-- Per-transaction balance change applied while scanning chain blocks:
credit when the recipient matches, debit when the sender matches. -/
def txDelta (address : String) (tx : Tx) : Int :=
  (if tx.recipient = some address then tx.amount.getD 0 else 0) -
  (if tx.sender = some address then tx.amount.getD 0 else 0)

/-- Per-transaction mempool contribution: only debits are applied. -/
def txDebit (address : String) (tx : Tx) : Int :=
  if tx.sender = some address then tx.amount.getD 0 else 0

/-- Modelled from the spec (§4.5): credits and debits summed over every
chain block, then only the debits subtracted over the mempool. -/
def spec_balance (bc : Blockchain) (address : String) : Int :=
  (bc.chain.map (fun blk => (blk.transactions.map (txDelta address)).sum)).sum -
  (bc.mempool.map (txDebit address)).sum

/-- The block at chain position `i` (for stating validator diagnostics). -/
def chainAt (bc : Blockchain) (i : Nat) : Block := bc.chain.getD i default

/-- Whether a given check fails for a block `curr` following `prev`. -/
def checkFails (sha256hex : String → String) (d : Nat) (prev curr : Block) :
    CheckKind → Bool
  | CheckKind.hashCheck => curr.hash != compute_hash sha256hex curr
  | CheckKind.linkCheck => curr.previous_hash != prev.hash
  | CheckKind.powCheck => !(strStartsWith curr.hash (zeroTarget d))

/-! Helper lemmas shared by several claims. -/

theorem powLoop_spec (sha256hex : String → String) (difficulty : Nat) (b : Block) :
    ∀ (fuel k n : Nat) (h : String),
      powLoop sha256hex difficulty b fuel k = some (n, h) →
      k ≤ n ∧ h = compute_hash sha256hex { b with nonce := n } ∧
        strStartsWith h (zeroTarget difficulty) = true ∧
        ∀ m, k ≤ m → m < n →
          strStartsWith (compute_hash sha256hex { b with nonce := m })
            (zeroTarget difficulty) = false
  | 0, k, n, h => by simp [powLoop]
  | fuel + 1, k, n, h => by
    intro heq
    simp only [powLoop] at heq
    by_cases hs : strStartsWith (compute_hash sha256hex { b with nonce := k })
        (zeroTarget difficulty) = true
    · rw [if_pos hs] at heq
      obtain ⟨rfl, rfl⟩ := Prod.mk.injEq .. ▸ Option.some.injEq .. ▸ heq
      exact ⟨Nat.le_refl _, rfl, hs, fun m hm1 hm2 => absurd hm1 (by omega)⟩
    · rw [if_neg hs] at heq
      obtain ⟨h1, h2, h3, h4⟩ :=
        powLoop_spec sha256hex difficulty b fuel (k + 1) n h heq
      refine ⟨by omega, h2, h3, fun m hm1 hm2 => ?_⟩
      by_cases hmk : m = k
      · subst hmk
        simpa using hs
      · exact h4 m (by omega) hm2

theorem txFoldl_eq (address : String) : ∀ (l : List Tx) (b : Int),
    l.foldl (fun balance tx =>
      let balance := if tx.sender = some address
        then balance - tx.amount.getD 0 else balance
      if tx.recipient = some address
        then balance + tx.amount.getD 0 else balance) b =
      b + (l.map (txDelta address)).sum
  | [], b => by simp
  | tx :: l, b => by
    rw [List.foldl_cons, txFoldl_eq address l, List.map_cons, List.sum_cons]
    show (if tx.recipient = some address
        then (if tx.sender = some address
          then b - tx.amount.getD 0 else b) + tx.amount.getD 0
        else (if tx.sender = some address
          then b - tx.amount.getD 0 else b)) + (l.map (txDelta address)).sum =
      b + (txDelta address tx + (l.map (txDelta address)).sum)
    unfold txDelta
    split <;> split <;> ring

theorem chainFoldl_eq (address : String) : ∀ (blocks : List Block) (b : Int),
    blocks.foldl (fun balance block =>
      block.transactions.foldl (fun balance tx =>
        let balance := if tx.sender = some address
          then balance - tx.amount.getD 0 else balance
        if tx.recipient = some address
          then balance + tx.amount.getD 0 else balance) balance) b =
      b + (blocks.map (fun blk => (blk.transactions.map (txDelta address)).sum)).sum
  | [], b => by simp
  | blk :: blocks, b => by
    rw [List.foldl_cons, chainFoldl_eq address blocks, txFoldl_eq address,
      List.map_cons, List.sum_cons]
    ring

theorem memFoldl_eq (address : String) : ∀ (l : List Tx) (b : Int),
    l.foldl (fun balance tx =>
      if tx.sender = some address
        then balance - tx.amount.getD 0 else balance) b =
      b - (l.map (txDebit address)).sum
  | [], b => by simp
  | tx :: l, b => by
    rw [List.foldl_cons, memFoldl_eq address l, List.map_cons, List.sum_cons]
    show (if tx.sender = some address then b - tx.amount.getD 0 else b) -
        (l.map (txDebit address)).sum =
      b - (txDebit address tx + (l.map (txDebit address)).sum)
    unfold txDebit
    split <;> ring

theorem get_balance_eq_spec (bc : Blockchain) (address : String) :
    get_balance bc address = spec_balance bc address := by
  unfold get_balance spec_balance
  rw [memFoldl_eq, chainFoldl_eq]
  ring

theorem compute_hash_hash_irrel (sha256hex : String → String) (b : Block)
    (x : String) : compute_hash sha256hex { b with hash := x } =
      compute_hash sha256hex b := rfl

theorem getLastD_of_getLast? : ∀ (l : List Block) (g tail : Block),
    (g :: l).getLast? = some tail → l.getLastD g = tail
  | [], g, tail => by
    intro h
    simp [List.getLast?] at h
    simp [List.getLastD, h]
  | b :: l, g, tail => by
    intro h
    rw [List.getLast?_cons_cons] at h
    rw [List.getLastD_cons]
    exact getLastD_of_getLast? l b tail h

theorem validateLoop_append_valid (sha256hex : String → String) (d : Nat) :
    ∀ (rest : List Block) (prev : Block) (i : Nat) (b : Block),
      (validateLoop sha256hex d prev rest i).1 = true →
      b.hash = compute_hash sha256hex b →
      b.previous_hash = (rest.getLastD prev).hash →
      strStartsWith b.hash (zeroTarget d) = true →
      (validateLoop sha256hex d prev (rest ++ [b]) i).1 = true
  | [], prev, i, b => by
    intro _ hb1 hb2 hb3
    simp only [List.getLastD] at hb2
    simp only [List.nil_append, validateLoop]
    rw [if_neg (not_not_intro hb1), if_neg (not_not_intro hb2),
      if_neg (not_not_intro hb3)]
  | curr :: rest, prev, i, b => by
    intro hvalid hb1 hb2 hb3
    rw [List.getLastD_cons] at hb2
    by_cases h1 : curr.hash = compute_hash sha256hex curr
    · by_cases h2 : curr.previous_hash = prev.hash
      · by_cases h3 : strStartsWith curr.hash (zeroTarget d) = true
        · have hstep : ∀ l, validateLoop sha256hex d prev (curr :: l) i =
              validateLoop sha256hex d curr l (i + 1) := by
            intro l
            simp only [validateLoop]
            rw [if_neg (not_not_intro h1), if_neg (not_not_intro h2),
              if_neg (not_not_intro h3)]
          rw [hstep] at hvalid
          rw [List.cons_append, hstep]
          exact validateLoop_append_valid sha256hex d rest curr (i + 1) b
            hvalid hb1 hb2 hb3
        · have h3x : strStartsWith (compute_hash sha256hex curr) (zeroTarget d) = false := by
            rw [← h1]
            exact Bool.eq_false_iff.mpr h3
          simp [validateLoop, h1, h2, h3x] at hvalid
      · simp [validateLoop, h1, h2] at hvalid
    · simp [validateLoop, h1] at hvalid

theorem validateLoop_diag (sha256hex : String → String) (d : Nat) :
    ∀ (rest : List Block) (prev : Block) (i : Nat),
      ((validateLoop sha256hex d prev rest i).2 = none →
        (validateLoop sha256hex d prev rest i).1 = true ∧
        ∀ j, j < rest.length → ∀ k,
          checkFails sha256hex d ((prev :: rest).getD j default)
            (rest.getD j default) k = false) ∧
      (∀ a k, (validateLoop sha256hex d prev rest i).2 = some (a, k) →
        (validateLoop sha256hex d prev rest i).1 = false ∧
        i ≤ a ∧ a - i < rest.length ∧
        checkFails sha256hex d ((prev :: rest).getD (a - i) default)
          (rest.getD (a - i) default) k = true ∧
        (∀ k2, checkOrder k2 < checkOrder k →
          checkFails sha256hex d ((prev :: rest).getD (a - i) default)
            (rest.getD (a - i) default) k2 = false) ∧
        ∀ j, j < a - i → ∀ k2,
          checkFails sha256hex d ((prev :: rest).getD j default)
            (rest.getD j default) k2 = false)
  | [], prev, i => by
    constructor
    · intro _
      refine ⟨rfl, fun j hj => absurd hj (by simp)⟩
    · intro a k h
      simp [validateLoop] at h
  | curr :: rest, prev, i => by
    by_cases h1 : curr.hash = compute_hash sha256hex curr
    · by_cases h2 : curr.previous_hash = prev.hash
      · by_cases h3 : strStartsWith curr.hash (zeroTarget d) = true
        · -- all three checks pass: one recursion step
          have hstep : validateLoop sha256hex d prev (curr :: rest) i =
              validateLoop sha256hex d curr rest (i + 1) := by
            simp only [validateLoop]
            rw [if_neg (not_not_intro h1), if_neg (not_not_intro h2),
              if_neg (not_not_intro h3)]
          have h3c : strStartsWith (compute_hash sha256hex curr) (zeroTarget d) = true :=
            h1 ▸ h3
          have hhead : ∀ k2, checkFails sha256hex d prev curr k2 = false := by
            intro k2
            cases k2 <;> simp [checkFails, h1, h2, h3, h3c]
          obtain ⟨ih1, ih2⟩ := validateLoop_diag sha256hex d rest curr (i + 1)
          rw [hstep]
          constructor
          · intro hnone
            obtain ⟨hv, hall⟩ := ih1 hnone
            refine ⟨hv, fun j hj k => ?_⟩
            match j with
            | 0 => exact hhead k
            | j + 1 =>
              rw [List.getD_cons_succ, List.getD_cons_succ]
              exact hall j (by simpa using hj) k
          · intro a k h
            obtain ⟨f1, f2, f3, f4, f5, f6⟩ := ih2 a k h
            have hai : a - i = (a - (i + 1)) + 1 := by omega
            refine ⟨f1, by omega, ?_, ?_, ?_, ?_⟩
            · simp only [List.length_cons]
              omega
            · rw [hai, List.getD_cons_succ, List.getD_cons_succ]
              exact f4
            · intro k2 hk2
              rw [hai, List.getD_cons_succ, List.getD_cons_succ]
              exact f5 k2 hk2
            · intro j hj k2
              match j with
              | 0 => exact hhead k2
              | j + 1 =>
                rw [List.getD_cons_succ, List.getD_cons_succ]
                exact f6 j (by omega) k2
        · -- proof-of-work check fails at index i
          have hv : validateLoop sha256hex d prev (curr :: rest) i =
              (false, some (i, CheckKind.powCheck)) := by
            simp only [validateLoop]
            rw [if_neg (not_not_intro h1), if_neg (not_not_intro h2),
              if_pos h3]
          rw [hv]
          constructor
          · intro hnone
            simp at hnone
          · intro a k h
            simp only [Option.some.injEq, Prod.mk.injEq] at h
            obtain ⟨rfl, rfl⟩ := h
            refine ⟨rfl, Nat.le_refl _, by simp, ?_, ?_, ?_⟩
            · simp [Nat.sub_self, checkFails, Bool.eq_false_iff.mpr h3]
            · intro k2 hk2
              cases k2 <;> simp [checkOrder] at hk2 ⊢ <;>
                simp [checkFails, h1, h2]
            · intro j hj
              exact absurd hj (by omega)
      · -- linkage check fails at index i
        have hv : validateLoop sha256hex d prev (curr :: rest) i =
            (false, some (i, CheckKind.linkCheck)) := by
          simp only [validateLoop]
          rw [if_neg (not_not_intro h1), if_pos h2]
        rw [hv]
        constructor
        · intro hnone
          simp at hnone
        · intro a k h
          simp only [Option.some.injEq, Prod.mk.injEq] at h
          obtain ⟨rfl, rfl⟩ := h
          refine ⟨rfl, Nat.le_refl _, by simp, ?_, ?_, ?_⟩
          · simp [Nat.sub_self, checkFails, bne_iff_ne, h2]
          · intro k2 hk2
            cases k2 <;> simp [checkOrder] at hk2 ⊢ <;>
              simp [checkFails, h1]
          · intro j hj
            exact absurd hj (by omega)
    · -- content-hash check fails at index i
      have hv : validateLoop sha256hex d prev (curr :: rest) i =
          (false, some (i, CheckKind.hashCheck)) := by
        simp only [validateLoop]
        rw [if_pos h1]
      rw [hv]
      constructor
      · intro hnone
        simp at hnone
      · intro a k h
        simp only [Option.some.injEq, Prod.mk.injEq] at h
        obtain ⟨rfl, rfl⟩ := h
        refine ⟨rfl, Nat.le_refl _, by simp, ?_, ?_, ?_⟩
        · simp [Nat.sub_self, checkFails, bne_iff_ne, h1]
        · intro k2 hk2
          cases k2 <;> simp [checkOrder] at hk2
        · intro j hj
          exact absurd hj (by omega)

/-! Claim theorems. -/

/-- C5: for a 3-element transaction list `[a, b, c]`, the Merkle root is
`Hash(Hash(Hash(a)+Hash(b)) + Hash(Hash(c)+Hash(c)))`, where `Hash` of a
transaction is the digest of its canonical encoding, `+` is string
concatenation of digests, and the odd leaf is paired with itself. -/
theorem merkle_root_three (sha256hex : String → String) (a b c : Tx) :
    compute_merkle_root sha256hex [a, b, c] =
      some (sha256hex (sha256hex (txHash sha256hex a ++ txHash sha256hex b) ++
        sha256hex (txHash sha256hex c ++ txHash sha256hex c))) := by
  have h3 : ∀ x y z : String, merkleLoop sha256hex [x, y, z] =
      [sha256hex (sha256hex (x ++ y) ++ sha256hex (z ++ z))] := by
    intro x y z
    show merkleLoopF sha256hex 3 [x, y, z] = _
    rw [show (3 : Nat) = 2 + 1 from rfl, merkleLoopF_succ, if_pos (by simp)]
    simp only [merklePass]
    rw [show (2 : Nat) = 1 + 1 from rfl, merkleLoopF_succ, if_pos (by simp)]
    simp only [merklePass]
    rw [show (1 : Nat) = 0 + 1 from rfl, merkleLoopF_succ, if_neg (by simp)]
  simp [compute_merkle_root, h3]

/-- C6: when the sequential proof-of-work search returns, the returned hash
is the block's hash at the found nonce, it has `difficulty` leading `'0'`
characters, and the found nonce is minimal: every strictly smaller nonce
yields a hash that misses the target. -/
theorem proof_of_work_minimal (sha256hex : String → String) (difficulty : Nat)
    (b : Block) (fuel n : Nat) (h : String)
    (hpow : proof_of_work sha256hex difficulty b fuel = some (n, h)) :
    h = compute_hash sha256hex { b with nonce := n } ∧
    strStartsWith h (zeroTarget difficulty) = true ∧
    ∀ m, m < n → strStartsWith (compute_hash sha256hex { b with nonce := m })
      (zeroTarget difficulty) = false := by
  obtain ⟨-, h2, h3, h4⟩ :=
    powLoop_spec sha256hex difficulty b fuel 0 n h hpow
  exact ⟨h2, h3, fun m hm => h4 m (Nat.zero_le m) hm⟩

/-- Witness for C6: on `blockW` at difficulty 1 the search finds nonce 1 with
hash `"0349c"`, and nonce 0 misses the target. -/
theorem proof_of_work_minimal_w :
    "0349c" = compute_hash testHash { blockW with nonce := 1 } ∧
    strStartsWith "0349c" (zeroTarget 1) = true ∧
    ∀ m, m < 1 → strStartsWith (compute_hash testHash { blockW with nonce := m })
      (zeroTarget 1) = false :=
  proof_of_work_minimal testHash 1 blockW 8 1 "0349c" (by decide)

/-- C7: a 1-block chain is always reported valid: the validator's loop starts
at index 1, so the genesis block is never checked against the difficulty
target or linkage. -/
theorem genesis_never_checked (sha256hex : String → String) (bc : Blockchain)
    (b : Block) (hc : bc.chain = [b]) : is_chain_valid sha256hex bc = true := by
  simp [is_chain_valid, is_chain_valid_logged, hc, validateLoop]

/-- Witness for C7: a 1-block chain whose internally consistent genesis hash
has no leading zeros is still valid at difficulty 3. -/
theorem genesis_never_checked_w :
    is_chain_valid testHash ⟨[gBlock], [], 3⟩ = true ∧
    strStartsWith gBlock.hash (zeroTarget 3) = false ∧
    gBlock.hash = compute_hash testHash gBlock :=
  ⟨genesis_never_checked testHash ⟨[gBlock], [], 3⟩ gBlock rfl,
   by decide, by decide⟩

/-- C8: `mine_block` on an empty mempool returns the `None` sentinel and
leaves the state (chain, mempool, difficulty) exactly unchanged. -/
theorem mine_block_empty_mempool (sha256hex : String → String)
    (bc : Blockchain) (m : String) (now fuel : Nat) (he : bc.mempool = []) :
    mine_block sha256hex bc m now fuel = some (none, bc) := by
  simp [mine_block, he]

/-- Witness for C8 at the concrete state `bcV` (empty mempool). -/
theorem mine_block_empty_mempool_w :
    mine_block testHash bcV "miner1" 5 10 = some (none, bcV) :=
  mine_block_empty_mempool testHash bcV "miner1" 5 10 rfl

/-- C1 counterexample: on the concrete valid 3-block chain `bcV`, mutating
block 1's `previous_hash` (all other stored fields, including its stored
hash, unchanged) makes the validator report index 1 failing on the
content-hash check, not on the linkage check as the claim states. -/
theorem tamper_previous_hash_cex :
    is_chain_valid testHash bcV = true ∧
    ({ c1 with previous_hash := "deadbeef" } : Block).hash = c1.hash ∧
    (is_chain_valid_logged testHash
      ⟨[c0, { c1 with previous_hash := "deadbeef" }, c2], [], 0⟩).2 =
      some (1, CheckKind.hashCheck) ∧
    (is_chain_valid_logged testHash
      ⟨[c0, { c1 with previous_hash := "deadbeef" }, c2], [], 0⟩).2 ≠
      some (1, CheckKind.linkCheck) := by
  refine ⟨by decide, by decide, by decide, by decide⟩

/-- C1 (amended): on a valid 3-block chain, mutating block 1's
`previous_hash` (stored hash unchanged) makes the validator report index 1
as failing on the content-hash check — `previous_hash` is an input of the
block hash, so the recomputed hash no longer matches the stored one
(absent a hash collision), and that check runs first. -/
theorem tamper_previous_hash_fails_hash_check (sha256hex : String → String)
    (b0 b1 b2 : Block) (mp : List Tx) (d : Nat) (p : String)
    (hvalid : is_chain_valid sha256hex ⟨[b0, b1, b2], mp, d⟩ = true)
    (hcoll : compute_hash sha256hex { b1 with previous_hash := p } ≠ b1.hash) :
    is_chain_valid_logged sha256hex
      ⟨[b0, { b1 with previous_hash := p }, b2], mp, d⟩ =
      (false, some (1, CheckKind.hashCheck)) := by
  have hne : ({ b1 with previous_hash := p } : Block).hash ≠
      compute_hash sha256hex { b1 with previous_hash := p } :=
    fun he => hcoll he.symm
  simp only [is_chain_valid_logged, validateLoop]
  rw [if_pos hne]

/-- Witness for the amended C1 at the concrete chain `bcV`. -/
theorem tamper_previous_hash_fails_hash_check_w :
    is_chain_valid_logged testHash
      ⟨[c0, { c1 with previous_hash := "deadbeef" }, c2], [], 0⟩ =
      (false, some (1, CheckKind.hashCheck)) :=
  tamper_previous_hash_fails_hash_check testHash c0 c1 c2 [] 0 "deadbeef"
    (by decide) (by decide)

/-- C2 counterexample: `is_chain_valid` returns only a boolean in Python;
two chains failing different checks (content hash at index 1 vs. linkage at
index 1) produce identical return values, so the return value carries no
structured diagnostic — the failing index and check are only printed. -/
theorem is_chain_valid_returns_only_bool :
    is_chain_valid testHash bcH = is_chain_valid testHash bcL ∧
    (is_chain_valid_logged testHash bcH).2 = some (1, CheckKind.hashCheck) ∧
    (is_chain_valid_logged testHash bcL).2 = some (1, CheckKind.linkCheck) := by
  refine ⟨by decide, by decide, by decide⟩

/-- C2 (amended): the returned boolean is `true` exactly when no diagnostic
is printed, and the printed diagnostic identifies the first failing block
index and, at that index, the first failing of the three checks in order
(content hash, linkage, proof-of-work); all earlier indices pass all
checks, i.e. validation stops at the first failure. -/
theorem is_chain_valid_diag (sha256hex : String → String) (bc : Blockchain) :
    (is_chain_valid sha256hex bc = true ↔
      (is_chain_valid_logged sha256hex bc).2 = none) ∧
    (∀ i k, (is_chain_valid_logged sha256hex bc).2 = some (i, k) →
      is_chain_valid sha256hex bc = false ∧
      1 ≤ i ∧ i < bc.chain.length ∧
      checkFails sha256hex bc.difficulty (chainAt bc (i - 1)) (chainAt bc i) k
        = true ∧
      (∀ k2, checkOrder k2 < checkOrder k →
        checkFails sha256hex bc.difficulty (chainAt bc (i - 1)) (chainAt bc i)
          k2 = false) ∧
      ∀ j k2, 1 ≤ j → j < i →
        checkFails sha256hex bc.difficulty (chainAt bc (j - 1)) (chainAt bc j)
          k2 = false) := by
  match hch : bc.chain with
  | [] =>
    constructor
    · simp [is_chain_valid, is_chain_valid_logged, hch]
    · intro i k h
      simp [is_chain_valid_logged, hch] at h
  | g :: rest =>
    have hlog : is_chain_valid_logged sha256hex bc =
        validateLoop sha256hex bc.difficulty g rest 1 := by
      simp [is_chain_valid_logged, hch]
    obtain ⟨d1, d2⟩ := validateLoop_diag sha256hex bc.difficulty rest g 1
    constructor
    · constructor
      · intro hv
        match h2 : (is_chain_valid_logged sha256hex bc).2 with
        | none => rfl
        | some (a, k) =>
          rw [hlog] at h2
          obtain ⟨f1, -⟩ := d2 a k h2
          rw [is_chain_valid, hlog, f1] at hv
          exact absurd hv (by simp)
      · intro hn
        rw [hlog] at hn
        obtain ⟨f1, -⟩ := d1 hn
        rw [is_chain_valid, hlog, f1]
    · intro i k h
      rw [hlog] at h
      obtain ⟨f1, f2, f3, f4, f5, f6⟩ := d2 i k h
      have hgd : ∀ j, 1 ≤ j →
          chainAt bc (j - 1) = (g :: rest).getD (j - 1) default ∧
          chainAt bc j = rest.getD (j - 1) default := by
        intro j hj
        constructor
        · simp [chainAt, hch]
        · obtain ⟨j2, rfl⟩ : ∃ j2, j = j2 + 1 := ⟨j - 1, by omega⟩
          simp [chainAt, hch]
      refine ⟨by rw [is_chain_valid, hlog, f1], f2, by simpa [hch] using by omega, ?_, ?_, ?_⟩
      · obtain ⟨e1, e2⟩ := hgd i f2
        rw [e1, e2]
        have : i - 1 = i - 1 := rfl
        simpa [show i - 1 = i - 1 from rfl] using f4
      · intro k2 hk2
        obtain ⟨e1, e2⟩ := hgd i f2
        rw [e1, e2]
        exact f5 k2 hk2
      · intro j k2 hj1 hj2
        obtain ⟨e1, e2⟩ := hgd j hj1
        rw [e1, e2]
        exact f6 (j - 1) (by omega) k2

/-- Witness for the amended C2 at the concrete mislinked chain `bcL`. -/
theorem is_chain_valid_diag_w :
    is_chain_valid testHash bcL = false ∧
    checkFails testHash 0 (chainAt bcL 0) (chainAt bcL 1) CheckKind.linkCheck
      = true ∧
    checkFails testHash 0 (chainAt bcL 0) (chainAt bcL 1) CheckKind.hashCheck
      = false := by
  obtain ⟨-, h2⟩ := is_chain_valid_diag testHash bcL
  obtain ⟨ha, -, -, hd, he, -⟩ := h2 1 CheckKind.linkCheck (by decide)
  exact ⟨ha, hd, he CheckKind.hashCheck (by decide)⟩

/-- C3 counterexample: mining on a state with non-empty mempool whose chain
is already corrupt succeeds (a block is returned) but the resulting chain
does not satisfy `is_chain_valid`, so the claim's unconditional
"resulting chain satisfies isValid() == true" fails. -/
theorem mine_block_not_always_valid :
    bcBad.mempool ≠ [] ∧
    (mine_block testHash bcBad "m" 9 8).map
      (fun p => (p.1.isSome, is_chain_valid testHash p.2)) =
      some (true, false) := by
  refine ⟨by decide, by decide⟩


theorem mkBlock_index (sha256hex : String → String) (i : Nat) (txs : List Tx)
    (p : String) (t nn : Nat) : (mkBlock sha256hex i txs p t nn).index = i := rfl

theorem mkBlock_transactions (sha256hex : String → String) (i : Nat)
    (txs : List Tx) (p : String) (t nn : Nat) :
    (mkBlock sha256hex i txs p t nn).transactions = txs := rfl

theorem mkBlock_previous_hash (sha256hex : String → String) (i : Nat)
    (txs : List Tx) (p : String) (t nn : Nat) :
    (mkBlock sha256hex i txs p t nn).previous_hash = p := rfl

/-- C3 (amended): if the pre-call chain is valid and the proof-of-work
search returns (the source loop is unbounded; fuel models termination),
`mine_block` on a non-empty mempool appends the reward transaction
`{sender:"network", recipient:minerAddress, amount:10}` to the mined
transactions, the new block's index is the pre-call chain length, its
`previous_hash` is the pre-call tail's hash, its transactions are the whole
mempool plus the reward, the chain grows by exactly that block, the mempool
is cleared, and the resulting chain satisfies `is_chain_valid`. -/
theorem mine_block_spec (sha256hex : String → String) (bc : Blockchain)
    (m : String) (now fuel : Nat) (blk : Block) (bc2 : Blockchain)
    (hvalid : is_chain_valid sha256hex bc = true)
    (hmine : mine_block sha256hex bc m now fuel = some (some blk, bc2)) :
    blk.index = bc.chain.length ∧
    blk.transactions = bc.mempool ++ [create_transaction "network" m 10 now] ∧
    (∃ tail, bc.chain.getLast? = some tail ∧ blk.previous_hash = tail.hash) ∧
    bc2.chain = bc.chain ++ [blk] ∧
    bc2.chain.length = bc.chain.length + 1 ∧
    bc2.mempool = [] ∧
    bc2.difficulty = bc.difficulty ∧
    is_chain_valid sha256hex bc2 = true := by
  unfold mine_block at hmine
  by_cases he : bc.mempool.isEmpty
  · rw [if_pos he] at hmine
    simp at hmine
  · rw [if_neg he] at hmine
    match hlast : bc.chain.getLast? with
    | none =>
      rw [hlast] at hmine
      simp at hmine
    | some tail =>
      rw [hlast] at hmine
      simp only at hmine
      match hpow : proof_of_work sha256hex bc.difficulty
          (mkBlock sha256hex bc.chain.length
            (bc.mempool ++ [create_transaction "network" m 10 now])
            tail.hash now 0) fuel with
      | none =>
        rw [hpow] at hmine
        simp at hmine
      | some (n, h) =>
        rw [hpow] at hmine
        simp only [Option.some.injEq, Prod.mk.injEq] at hmine
        set newb := mkBlock sha256hex bc.chain.length
          (bc.mempool ++ [create_transaction "network" m 10 now])
          tail.hash now 0 with hnewb
        obtain ⟨hblk, hbc2⟩ := hmine
        obtain ⟨-, hh, hzero, -⟩ :=
          powLoop_spec sha256hex bc.difficulty newb fuel 0 n h hpow
        have hhash : ({ newb with nonce := n, hash := h } : Block).hash =
            compute_hash sha256hex { newb with nonce := n, hash := h } := by
          show h = _
          rw [compute_hash_hash_irrel sha256hex { newb with nonce := n } h]
          exact hh
        have hzero2 : strStartsWith
            ({ newb with nonce := n, hash := h } : Block).hash
            (zeroTarget bc.difficulty) = true := hzero
        refine ⟨?_, ?_, ⟨tail, rfl, ?_⟩, ?_, ?_, ?_, ?_, ?_⟩
        · rw [← hblk]
          show newb.index = _
          rw [hnewb, mkBlock_index]
        · rw [← hblk]
          show newb.transactions = _
          rw [hnewb, mkBlock_transactions]
        · rw [← hblk]
          show newb.previous_hash = _
          rw [hnewb, mkBlock_previous_hash]
        · rw [← hbc2, ← hblk]
        · rw [← hbc2]
          simp
        · rw [← hbc2]
        · rw [← hbc2]
        · -- validity of the appended chain
          rw [← hbc2]
          cases hch : bc.chain with
          | nil =>
            rw [hch] at hlast
            simp at hlast
          | cons g rest =>
            rw [hch] at hlast
            have hv1 : (validateLoop sha256hex bc.difficulty g rest 1).1
                = true := by
              rw [is_chain_valid, is_chain_valid_logged, hch] at hvalid
              exact hvalid
            have hgl : rest.getLastD g = tail :=
              getLastD_of_getLast? rest g tail hlast
            have hprev : ({ newb with nonce := n, hash := h } : Block).previous_hash
                = (rest.getLastD g).hash := by
              rw [hgl]
              show newb.previous_hash = _
              rw [hnewb, mkBlock_previous_hash]
            rw [is_chain_valid, is_chain_valid_logged]
            simp only [hch, List.cons_append]
            exact validateLoop_append_valid sha256hex bc.difficulty rest g 1
              { newb with nonce := n, hash := h } hv1 hhash hprev hzero2

/-- Witness for the amended C3: mining the valid chain `bcW` (one pending
transaction, difficulty 0) yields the block `blkW` and state `bcW2`. -/
theorem mine_block_spec_w :
    blkW.index = bcW.chain.length ∧
    blkW.transactions = bcW.mempool ++ [create_transaction "network" "m" 10 5] ∧
    (∃ tail, bcW.chain.getLast? = some tail ∧ blkW.previous_hash = tail.hash) ∧
    bcW2.chain = bcW.chain ++ [blkW] ∧
    bcW2.chain.length = bcW.chain.length + 1 ∧
    bcW2.mempool = [] ∧
    bcW2.difficulty = bcW.difficulty ∧
    is_chain_valid testHash bcW2 = true :=
  mine_block_spec testHash bcW "m" 5 4 blkW bcW2 (by decide) (by decide)

/-- C4: `get_balance` refines the spec's asymmetric accounting — debits and
credits over every chain block, debits only over the mempool — and on the
concrete scenario (only confirmed transaction credits Alice 100, pending
transaction debits Alice 30 to Bob) returns 70 for Alice and 0 for Bob. -/
theorem get_balance_asymmetry (bc : Blockchain) (address : String) :
    get_balance bc address = spec_balance bc address ∧
    get_balance aliceChain "Alice" = 70 ∧
    get_balance aliceChain "Bob" = 0 :=
  ⟨get_balance_eq_spec bc address, by decide, by decide⟩

/-- C9: `add_transaction` leaves the chain and difficulty unchanged, and any
successful `mine_block` leaves the difficulty unchanged and only appends to
the chain (the pre-call chain is a prefix of the new one); `get_balance` and
`is_chain_valid` are read-only by construction (they return plain values and
no state). -/
theorem ops_preserve_invariants (sha256hex : String → String)
    (bc : Blockchain) (tx : Tx) (m : String) (now fuel : Nat) :
    (add_transaction bc tx).1.difficulty = bc.difficulty ∧
    (add_transaction bc tx).1.chain = bc.chain ∧
    ∀ ob bc2, mine_block sha256hex bc m now fuel = some (ob, bc2) →
      bc2.difficulty = bc.difficulty ∧ ∃ t, bc2.chain = bc.chain ++ t := by
  refine ⟨rfl, rfl, fun ob bc2 hmine => ?_⟩
  unfold mine_block at hmine
  by_cases he : bc.mempool.isEmpty
  · rw [if_pos he] at hmine
    simp only [Option.some.injEq, Prod.mk.injEq] at hmine
    obtain ⟨-, rfl⟩ := hmine
    exact ⟨rfl, [], by simp⟩
  · rw [if_neg he] at hmine
    match hlast : bc.chain.getLast? with
    | none =>
      rw [hlast] at hmine
      simp at hmine
    | some tail =>
      rw [hlast] at hmine
      simp only at hmine
      match hpow : proof_of_work sha256hex bc.difficulty
          (mkBlock sha256hex bc.chain.length
            (bc.mempool ++ [create_transaction "network" m 10 now])
            tail.hash now 0) fuel with
      | none =>
        rw [hpow] at hmine
        simp at hmine
      | some (n, h) =>
        rw [hpow] at hmine
        simp only [Option.some.injEq, Prod.mk.injEq] at hmine
        obtain ⟨-, hbc2⟩ := hmine
        rw [← hbc2]
        exact ⟨rfl, _, rfl⟩

/-- Witness for C9 at the concrete state `bcV` (where `mine_block` yields
the empty sentinel with the state unchanged). -/
theorem ops_preserve_invariants_w :
    (add_transaction bcV txW).1.difficulty = bcV.difficulty ∧
    (add_transaction bcV txW).1.chain = bcV.chain ∧
    bcV.difficulty = bcV.difficulty ∧ ∃ t, bcV.chain = bcV.chain ++ t := by
  obtain ⟨h1, h2, h3⟩ := ops_preserve_invariants testHash bcV txW "m" 5 4
  obtain ⟨h4, h5⟩ := h3 none bcV (by decide)
  exact ⟨h1, h2, h4, h5⟩

/-- C10: `get_balance` is total on malformed records: a missing `amount`
contributes 0 on both sides of the ledger (`tx.get('amount', 0)`), a missing
`sender` never matches the queried address (no debit anywhere), a record
with neither `sender` nor `recipient` changes nothing, and any
zero-contribution record leaves the computed balance unchanged whether it
sits in a chain block or in the mempool. -/
theorem get_balance_malformed (bc : Blockchain) (address : String) (tx : Tx)
    (blk : Block) :
    (tx.amount = none → txDelta address tx = 0 ∧ txDebit address tx = 0) ∧
    (tx.sender = none → txDebit address tx = 0) ∧
    (tx.sender = none → tx.recipient = none → txDelta address tx = 0) ∧
    (txDelta address tx = 0 →
      get_balance ⟨{ blk with transactions := tx :: blk.transactions } :: bc.chain,
        bc.mempool, bc.difficulty⟩ address =
      get_balance ⟨blk :: bc.chain, bc.mempool, bc.difficulty⟩ address) ∧
    (txDebit address tx = 0 →
      get_balance ⟨bc.chain, tx :: bc.mempool, bc.difficulty⟩ address =
      get_balance bc address) := by
  refine ⟨?_, ?_, ?_, ?_, ?_⟩
  · intro ha
    unfold txDelta txDebit
    rw [ha]
    simp
  · intro hs
    unfold txDebit
    rw [hs]
    simp
  · intro hs hr
    unfold txDelta
    rw [hs, hr]
    simp
  · intro hd
    rw [get_balance_eq_spec, get_balance_eq_spec]
    unfold spec_balance
    simp [hd]
  · intro hd
    rw [get_balance_eq_spec, get_balance_eq_spec]
    unfold spec_balance
    cases bc
    simp [hd]

/-- Witness for C10 at a record lacking `amount` and `timestamp`, in the
concrete state `bcV`. -/
theorem get_balance_malformed_w :
    (txDelta "Alice" txMalformed = 0 ∧ txDebit "Alice" txMalformed = 0) ∧
    get_balance ⟨{ c0 with transactions := txMalformed :: c0.transactions } :: bcV.chain,
      bcV.mempool, bcV.difficulty⟩ "Alice" =
      get_balance ⟨c0 :: bcV.chain, bcV.mempool, bcV.difficulty⟩ "Alice" ∧
    get_balance ⟨bcV.chain, txMalformed :: bcV.mempool, bcV.difficulty⟩ "Alice" =
      get_balance bcV "Alice" := by
  obtain ⟨h1, h2, h3, h4, h5⟩ := get_balance_malformed bcV "Alice" txMalformed c0
  obtain ⟨ha, hb⟩ := h1 rfl
  exact ⟨⟨ha, hb⟩, h4 ha, h5 hb⟩
